import Mathlib

/-!
Shallow embedding of the decern-gate repository (src/judge-diff.ts and
src/main.ts).  JavaScript strings are modelled as `List Char` (sequences of
Unicode scalar values); UTF-8 byte lengths are computed explicitly by
`byteLength`.  JavaScript `slice` counts UTF-16 code units, which coincide
with scalar values on the Basic Multilingual Plane; all inputs considered
here stay in that range.  The external `git diff` collaborator is modelled
as an `Option (List Char)` argument (`none` = the command failed).
-/

namespace DecernGate

/-- UTF-8 size in bytes of one Unicode scalar value. -/
def charBytes (c : Char) : Nat :=
  if c.toNat < 0x80 then 1
  else if c.toNat < 0x800 then 2
  else if c.toNat < 0x10000 then 3
  else 4

/-- UTF-8 byte length of a string, as computed by `Buffer.byteLength(s, "utf-8")`. -/
def byteLength (l : List Char) : Nat := (l.map charBytes).sum

/-- Whitespace recognised by JavaScript `trim` and `\s`. -/
def isJsWS (c : Char) : Bool :=
  decide ((9 ≤ c.toNat ∧ c.toNat ≤ 13) ∨ c.toNat = 32 ∨ c.toNat = 0xA0 ∨
    c.toNat = 0x1680 ∨ (0x2000 ≤ c.toNat ∧ c.toNat ≤ 0x200A) ∨
    c.toNat = 0x2028 ∨ c.toNat = 0x2029 ∨ c.toNat = 0x202F ∨
    c.toNat = 0x205F ∨ c.toNat = 0x3000 ∨ c.toNat = 0xFEFF)

/-- JavaScript `String.prototype.trimStart`. -/
def trimStartChars (l : List Char) : List Char := l.dropWhile isJsWS

/-- Drop trailing JS whitespace. -/
def trimEndChars (l : List Char) : List Char :=
  ((l.reverse).dropWhile isJsWS).reverse

/-- JavaScript `String.prototype.trim`. -/
def trimChars (l : List Char) : List Char := trimEndChars (trimStartChars l)

/-- `MAX_DIFF_BYTES` from src/judge-diff.ts: 2 MiB operational limit. -/
def MAX_DIFF_BYTES : Nat := 2 * 1024 * 1024

/-- `MAX_FILE_DIFF_BYTES` from src/judge-diff.ts: 1 MiB per-file limit. -/
def MAX_FILE_DIFF_BYTES : Nat := 1 * 1024 * 1024

/-- The set `IMAGE_OR_HEAVY_EXTENSIONS` from src/judge-diff.ts. -/
def IMAGE_OR_HEAVY_EXTENSIONS : List (List Char) :=
  [".png".data, ".jpg".data, ".jpeg".data, ".gif".data, ".webp".data,
   ".ico".data, ".bmp".data, ".tiff".data, ".tif".data, ".svg".data,
   ".avif".data, ".heic".data, ".webm".data, ".mp4".data, ".mov".data,
   ".avi".data, ".pdf".data, ".woff2".data, ".woff".data, ".ttf".data,
   ".eot".data, ".otf".data]

/-- ASCII lower-casing, as applied by `toLowerCase` to the ASCII range. -/
def asciiToLower (c : Char) : Char :=
  if 'A' ≤ c ∧ c ≤ 'Z' then Char.ofNat (c.toNat + 32) else c

/-- `isImageOrHeavyByPath` from src/judge-diff.ts: backslashes are normalised
to slashes, the path is lower-cased, and the extension (substring from the
last dot, inclusive) is looked up in the exclude set. -/
def isImageOrHeavyByPath (path : List Char) : Bool :=
  let normalized := (path.map fun c => if c = '\\' then '/' else c).map asciiToLower
  let ext := if normalized.contains '.' then
      '.' :: ((normalized.reverse.takeWhile (fun c => c ≠ '.')).reverse)
    else []
  IMAGE_OR_HEAVY_EXTENSIONS.contains ext

/-- The split marker of `splitDiffByFile`: the lookahead `(?=\ndiff --git )`. -/
def markerChars : List Char := "\ndiff --git ".data

/-- Core of the JS `rawDiff.split(/(?=\ndiff --git )/)`: split before every
occurrence of the marker, except at the very start of the current piece
(zero-width matches at the current split point do not split, per the
ECMAScript `split` algorithm). -/
def splitMarkerAux : List Char → List Char → List (List Char)
  | [], acc => [acc.reverse]
  | c :: rest, acc =>
    if acc ≠ [] ∧ markerChars.isPrefixOf (c :: rest) then
      acc.reverse :: splitMarkerAux rest [c]
    else
      splitMarkerAux rest (c :: acc)

/-- `rawDiff.split(/(?=\ndiff --git )/)`. -/
def splitRaw (l : List Char) : List (List Char) := splitMarkerAux l []

/-- `splitDiffByFile` from src/judge-diff.ts. -/
def splitDiffByFile (rawDiff : List Char) : List (List Char) :=
  if trimChars rawDiff = [] then []
  else
    let segments := ((splitRaw rawDiff).map trimChars).filter (fun s => s ≠ [])
    if segments = [] ∧ trimChars rawDiff ≠ [] then
      let first := trimStartChars rawDiff
      if "diff --git ".data.isPrefixOf first then [first] else segments
    else segments

/-- Whether `splitDiffByFile` takes its single-segment fallback branch
(`segments.length === 0 && rawDiff.trim()`). -/
def splitFallbackTaken (rawDiff : List Char) : Bool :=
  if trimChars rawDiff = [] then false
  else
    decide ((((splitRaw rawDiff).map trimChars).filter (fun s => s ≠ [])) = [] ∧
      trimChars rawDiff ≠ [])

/-- JS line terminators, which `.` in a regex does not match. -/
def lineTerm (c : Char) : Bool :=
  c = '\n' || c = '\r' || c.toNat = 0x2028 || c.toNat = 0x2029

/-- The lazy capture `(.+?)` followed by the literal ` b/` in the regex
`/^diff --git a\/(.+?) b\//`: the shortest non-empty run of
non-line-terminator characters after which ` b/` follows. -/
def pathCapture : List Char → Option (List Char)
  | [] => none
  | c :: rest =>
    if lineTerm c then none
    else if " b/".data.isPrefixOf rest then some [c]
    else
      match pathCapture rest with
      | some p => some (c :: p)
      | none => none

/-- `pathFromSegment` from src/judge-diff.ts. -/
def pathFromSegment (segment : List Char) : List Char :=
  let firstLine := segment.takeWhile (fun c => c ≠ '\n')
  if "diff --git a/".data.isPrefixOf firstLine then
    match pathCapture (firstLine.drop 13) with
    | some p => trimChars p
    | none => []
  else []

/-- JavaScript `String.prototype.includes` on character lists. -/
def containsSub (needle : List Char) : List Char → Bool
  | [] => needle.isPrefixOf []
  | c :: rest => needle.isPrefixOf (c :: rest) || containsSub needle rest

/-- `segmentIsBinary` from src/judge-diff.ts. -/
def segmentIsBinary (segment : List Char) : Bool :=
  containsSub "Binary files ".data segment && containsSub " differ".data segment

/-- The mutable state of the segment loop in `getDiffForJudge`. -/
structure BuildState where
  excludedFiles : List (List Char)
  included : List (List Char)
  totalBytes : Nat
  didTruncate : Bool
deriving DecidableEq

/-- Initial loop state. -/
def initState : BuildState := ⟨[], [], 0, false⟩

/-- One iteration of the `for (const seg of segments)` loop in
`getDiffForJudge`. -/
def processSegment (st : BuildState) (seg : List Char) : BuildState :=
  let path := pathFromSegment seg
  let segBytes := byteLength seg
  if (path ≠ [] ∧ isImageOrHeavyByPath path) ∨ segmentIsBinary seg ∨
      segBytes > MAX_FILE_DIFF_BYTES then
    if path ≠ [] then { st with excludedFiles := st.excludedFiles ++ [path] }
    else st
  else if st.totalBytes + segBytes ≤ MAX_DIFF_BYTES then
    { st with included := st.included ++ [seg],
              totalBytes := st.totalBytes + segBytes }
  else
    let remaining := MAX_DIFF_BYTES - st.totalBytes
    let st1 :=
      if remaining > 0 then
        { st with included := st.included ++ [seg.take remaining],
                  totalBytes := MAX_DIFF_BYTES,
                  didTruncate := true }
      else st
    if path ≠ [] then { st1 with excludedFiles := st1.excludedFiles ++ [path] }
    else st1

/-- The whole segment loop of `getDiffForJudge`. -/
def processSegments (segs : List (List Char)) : BuildState :=
  segs.foldl processSegment initState

/-- First-seen-order deduplication, as performed by `[...new Set(xs)]`
(ECMAScript `Set` preserves insertion order). -/
def dedupFirstAux {α : Type} [DecidableEq α] (seen : List α) : List α → List α
  | [] => []
  | a :: l =>
    if a ∈ seen then dedupFirstAux seen l
    else a :: dedupFirstAux (seen ++ [a]) l

/-- `[...new Set(xs)]`. -/
def dedupFirst {α : Type} [DecidableEq α] (l : List α) : List α :=
  dedupFirstAux [] l

/-- `JudgeDiffResult` from src/judge-diff.ts. -/
structure JudgeDiffResult where
  diff : List Char
  excludedFiles : List (List Char)
  truncated : Bool
  base : String
  head : String
deriving DecidableEq

/-- `getDiffForJudge` from src/judge-diff.ts.  The `git diff` collaborator is
passed in as `gitDiff`; `none` models the `catch` branch (command failure). -/
def getDiffForJudge (base head : String) (gitDiff : Option (List Char)) :
    JudgeDiffResult :=
  match gitDiff with
  | none => ⟨[], [], false, base, head⟩
  | some fullRaw =>
    let segments := splitDiffByFile fullRaw
    let st := processSegments segments
    let diff := List.intercalate ['\n'] st.included
    let totalRawBytes := byteLength fullRaw
    let truncated := st.didTruncate || decide (totalRawBytes > MAX_DIFF_BYTES)
    ⟨diff, dedupFirst st.excludedFiles, truncated, base, head⟩

/-! ### src/main.ts: decision-reference extraction -/

/-- A JS word character (`\w`), used by `\b`. -/
def wordChar (c : Char) : Bool := c.isAlpha || c.isDigit || c = '_'

/-- A character of the capture class `[a-zA-Z0-9_-]`. -/
def idChar (c : Char) : Bool := c.isAlpha || c.isDigit || c = '_' || c = '-'

/-- Word-ness of an optional character; the ends of the text count as
non-word for `\b`. -/
def isWordO : Option Char → Bool
  | none => false
  | some c => wordChar c

/-- Generic left-to-right global-regex scan (the `while ((m = re.exec(text)))`
loops of `extractDecisionIds`): at each position try the matcher; on success
emit the capture and resume after the match, else advance one character.
`prev` is the character before the current position (for `\b`); `fuel`
bounds the recursion and is always at least the remaining length. -/
def scanP (f : Option Char → List Char → Option (List Char × Nat)) :
    Nat → Option Char → List Char → List (List Char)
  | 0, _, _ => []
  | _ + 1, _, [] => []
  | fuel + 1, prev, c :: rest =>
    match f prev (c :: rest) with
    | some (cap, n) =>
      let m := max n 1
      cap :: scanP f fuel (((c :: rest).take m).getLast?) ((c :: rest).drop m)
    | none => scanP f fuel (some c) rest

/-- Matcher for `/decern:\s*([a-zA-Z0-9_-]+)/gi`. -/
def matchDecernColon (_prev : Option Char) (l : List Char) :
    Option (List Char × Nat) :=
  if (l.take 7).map asciiToLower = "decern:".data then
    let rest := l.drop 7
    let ws := rest.takeWhile isJsWS
    let cap := (rest.drop ws.length).takeWhile idChar
    if cap = [] then none else some (cap, 7 + ws.length + cap.length)
  else none

/-- Matcher for `/DECERN-([a-zA-Z0-9_-]+)/g` (case-sensitive). -/
def matchTicket (_prev : Option Char) (l : List Char) :
    Option (List Char × Nat) :=
  if "DECERN-".data.isPrefixOf l then
    let cap := (l.drop 7).takeWhile idChar
    if cap = [] then none else some (cap, 7 + cap.length)
  else none

/-- Matcher for `/\/decisions\/([a-zA-Z0-9_-]+)/g`. -/
def matchUrl (_prev : Option Char) (l : List Char) :
    Option (List Char × Nat) :=
  if "/decisions/".data.isPrefixOf l then
    let cap := (l.drop 11).takeWhile idChar
    if cap = [] then none else some (cap, 11 + cap.length)
  else none

/-- Backtracking for the trailing `\b` of `/\b(ADR-[a-zA-Z0-9_-]+)\b/gi`:
given the maximal class run `w` and the character following it, pick the
largest capture length `k ≥ 1` at which a word boundary holds. -/
def adrPick (w : List Char) (next : Option Char) : Option Nat :=
  ((List.range' 1 w.length).reverse).find? fun k =>
    isWordO (w.get? (k - 1)) != isWordO (if k < w.length then w.get? k else next)

/-- Matcher for `/\b(ADR-[a-zA-Z0-9_-]+)\b/gi`: word boundary before, then
`ADR-` case-insensitively, then a greedy class run backtracked until the
trailing word boundary holds.  The capture keeps the original casing. -/
def matchAdr (prev : Option Char) (l : List Char) : Option (List Char × Nat) :=
  if isWordO prev then none
  else if (l.take 4).map asciiToLower = "adr-".data then
    let w := (l.drop 4).takeWhile idChar
    if w = [] then none
    else
      let next := (l.drop (4 + w.length)).head?
      match adrPick w next with
      | some k => some (l.take 4 ++ w.take k, 4 + k)
      | none => none
  else none

/-- All raw captures of the four pattern families over a text, in the order
the `for (const re of [...])` loop collects them, each trimmed as by
`m[1].trim()`. -/
def allRefCaptures (text : List Char) : List (List Char) :=
  ((scanP matchDecernColon text.length none text) ++
   (scanP matchTicket text.length none text) ++
   (scanP matchUrl text.length none text) ++
   (scanP matchAdr text.length none text)).map trimChars

/-- One `ids.add(x)` step on the insertion-ordered `Set` of
`extractDecisionIds`. -/
def setAdd {α : Type} [DecidableEq α] (s : List α) (a : α) : List α :=
  if a ∈ s then s else s ++ [a]

/-- `extractDecisionIds` from src/main.ts. -/
def extractDecisionIds (text : List Char) : List (List Char) :=
  (allRefCaptures text).foldl setAdd []

/-! ### src/main.ts: judge confidence normalisation and reference choice -/

/-- The confidence normalisation of `callJudge` (src/main.ts lines 171-176):
`data.confidence > 1 ? data.confidence / 100 : data.confidence`.  Numbers
are modelled as rationals. -/
def normalizeConfidence (c : ℚ) : ℚ := if c > 1 then c / 100 else c

/-- The reference-validation loop of `run` (src/main.ts): references are
validated in order; the first success triggers the judge step, which is
called with `ids[ids.length - 1]`.  `valid` abstracts the validation
endpoint; the result is the reference handed to `callJudge`, or `none` when
no reference validates (the judge never runs). -/
def runLoop (allIds : List (List Char)) (valid : List Char → Bool) :
    List (List Char) → Option (List Char)
  | [] => none
  | id :: rest =>
    if valid id then allIds.getLast? else runLoop allIds valid rest

/-- The decision reference sent to the judge endpoint by `run`, given the
extracted ids and the validation outcomes. -/
def judgeRefForRun (ids : List (List Char)) (valid : List Char → Bool) :
    Option (List Char) :=
  runLoop ids valid ids

/-! ### Byte-length lemmas -/

theorem byteLength_cons (c : Char) (l : List Char) :
    byteLength (c :: l) = charBytes c + byteLength l := by
  simp [byteLength]

theorem byteLength_append (a b : List Char) :
    byteLength (a ++ b) = byteLength a + byteLength b := by
  simp [byteLength]

theorem byteLength_replicate (n : Nat) (c : Char) :
    byteLength (List.replicate n c) = n * charBytes c := by
  simp [byteLength, List.map_replicate, List.sum_replicate, smul_eq_mul]

theorem byteLength_eq_length {l : List Char} (h : ∀ c ∈ l, charBytes c = 1) :
    byteLength l = l.length := by
  induction l with
  | nil => rfl
  | cons c t ih =>
    have hc : charBytes c = 1 := h c (by simp)
    have ht := ih fun x hx => h x (by simp [hx])
    simp [byteLength_cons, hc, ht, Nat.add_comm]

/-! ### Prefix and substring helpers -/

theorem isPrefixOf_append_self (l m : List Char) :
    l.isPrefixOf (l ++ m) = true :=
  List.isPrefixOf_iff_prefix.mpr (List.prefix_append l m)

theorem mem_of_isPrefixOf {needle l : List Char}
    (h : needle.isPrefixOf l = true) : ∀ c ∈ needle, c ∈ l := by
  intro c hc
  have hp : needle <+: l := List.isPrefixOf_iff_prefix.mp h
  exact hp.subset hc

theorem containsSub_eq_false_of_not_mem {needle l : List Char} {c : Char}
    (hc : c ∈ needle) (hl : c ∉ l) : containsSub needle l = false := by
  induction l with
  | nil =>
    by_contra h
    have h' : needle.isPrefixOf [] = true := by
      revert h; simp [containsSub]
    exact hl (mem_of_isPrefixOf h' c hc)
  | cons a rest ih =>
    have h1 : needle.isPrefixOf (a :: rest) = false := by
      by_contra h
      have h' : needle.isPrefixOf (a :: rest) = true := by
        revert h; simp
      exact hl (mem_of_isPrefixOf h' c hc)
    have h2 : containsSub needle rest = false :=
      ih fun hm => hl (by simp [hm])
    simp [containsSub, h1, h2]

/-! ### Trim lemmas -/

theorem trimEndChars_eq_rdropWhile (l : List Char) :
    trimEndChars l = l.rdropWhile isJsWS := rfl

theorem trimStart_cons_neg {c : Char} (l : List Char) (h : isJsWS c = false) :
    trimStartChars (c :: l) = c :: l := by
  simp [trimStartChars, List.dropWhile_cons, h]

theorem trimChars_cons_ws {w : Char} (l : List Char) (h : isJsWS w = true) :
    trimChars (w :: l) = trimChars l := by
  simp [trimChars, trimStartChars, List.dropWhile_cons, h]

theorem trimChars_shape {c d : Char} (m : List Char)
    (hc : isJsWS c = false) (hd : isJsWS d = false) :
    trimChars (c :: (m ++ [d])) = c :: (m ++ [d]) := by
  have h1 : trimStartChars (c :: (m ++ [d])) = c :: (m ++ [d]) :=
    trimStart_cons_neg _ hc
  have h2 : trimEndChars (c :: (m ++ [d])) = c :: (m ++ [d]) := by
    rw [trimEndChars_eq_rdropWhile]
    have : c :: (m ++ [d]) = (c :: m) ++ [d] := by simp
    rw [this, List.rdropWhile_concat_neg _ _ _ (by simp [hd])]
  simp [trimChars, h1, h2]

theorem trimChars_eq_nil_iff (l : List Char) :
    trimChars l = [] ↔ ∀ c ∈ l, isJsWS c = true := by
  constructor
  · intro h c hc
    have hrd : (trimStartChars l).rdropWhile isJsWS = [] := h
    have hall : ∀ x ∈ trimStartChars l, isJsWS x = true :=
      List.rdropWhile_eq_nil_iff.mp hrd
    have hsplit := List.takeWhile_append_dropWhile (p := isJsWS) (l := l)
    rcases List.mem_append.mp (by rw [hsplit]; exact hc) with h1 | h2
    · exact List.mem_takeWhile_imp h1
    · exact hall c h2
  · intro h
    have h1 : trimStartChars l = [] := List.dropWhile_eq_nil_iff.mpr h
    simp [trimChars, h1, trimEndChars]

theorem trimChars_ne_nil_of_mem {l : List Char} {c : Char}
    (hc : c ∈ l) (h : isJsWS c = false) : trimChars l ≠ [] := by
  intro hnil
  have := (trimChars_eq_nil_iff l).mp hnil c hc
  simp [h] at this

theorem trimStart_idem (l : List Char) :
    trimStartChars (trimStartChars l) = trimStartChars l :=
  List.dropWhile_idempotent _ _

theorem trimStart_of_trimEnd_of_trimStart (l : List Char)
    (h : trimStartChars l = l) : trimStartChars (trimEndChars l) = trimEndChars l := by
  rw [trimEndChars_eq_rdropWhile]
  rcases h' : l.rdropWhile isJsWS with _ | ⟨c, t⟩
  · rfl
  · have hpre : l.rdropWhile isJsWS <+: l := List.rdropWhile_prefix _ _
    rw [h'] at hpre
    obtain ⟨r, hr⟩ := hpre
    have hl : l = c :: (t ++ r) := by rw [← hr]; simp
    have hc : isJsWS c = false := by
      by_contra hcc
      have hcc' : isJsWS c = true := by revert hcc; simp
      have := h
      rw [hl] at this
      simp [trimStartChars, List.dropWhile_cons, hcc'] at this
      have hlen : (List.dropWhile isJsWS (t ++ r)).length = (t ++ r).length + 1 := by
        rw [this]; simp
      have hle : (List.dropWhile isJsWS (t ++ r)).length ≤ (t ++ r).length :=
        (List.dropWhile_suffix (l := t ++ r) isJsWS).length_le
      omega
    exact trimStart_cons_neg _ hc

theorem trimChars_idem (l : List Char) :
    trimChars (trimChars l) = trimChars l := by
  unfold trimChars
  rw [trimStart_of_trimEnd_of_trimStart _ (trimStart_idem l)]
  rw [trimEndChars_eq_rdropWhile, trimEndChars_eq_rdropWhile,
    List.rdropWhile_idempotent]

/-! ### Split lemmas -/

theorem markerChars_eq : markerChars = '\n' :: "diff --git ".data := rfl

theorem splitMarkerAux_nil (acc : List Char) :
    splitMarkerAux [] acc = [acc.reverse] := rfl

theorem splitMarkerAux_start (c : Char) (rest : List Char) :
    splitMarkerAux (c :: rest) [] = splitMarkerAux rest [c] := by
  simp [splitMarkerAux]

theorem splitMarkerAux_split {c : Char} {rest acc : List Char}
    (hacc : acc ≠ []) (hm : markerChars.isPrefixOf (c :: rest) = true) :
    splitMarkerAux (c :: rest) acc = acc.reverse :: splitMarkerAux rest [c] := by
  simp [splitMarkerAux, hacc, hm]

theorem splitMarkerAux_scan (l1 : List Char) :
    ∀ (l2 acc : List Char), acc ≠ [] → '\n' ∉ l1 →
      splitMarkerAux (l1 ++ l2) acc = splitMarkerAux l2 (l1.reverse ++ acc) := by
  induction l1 with
  | nil => intro l2 acc _ _; simp
  | cons c t ih =>
    intro l2 acc hacc hnl
    have hc : c ≠ '\n' := fun h => hnl (by simp [h])
    have hm : markerChars.isPrefixOf (c :: (t ++ l2)) = false := by
      by_contra h
      have h' : markerChars.isPrefixOf (c :: (t ++ l2)) = true := by
        revert h; simp
      have hp : markerChars <+: c :: (t ++ l2) :=
        List.isPrefixOf_iff_prefix.mp h'
      obtain ⟨r, hr⟩ := hp
      rw [markerChars_eq] at hr
      have : '\n' = c := by
        have := congrArg (fun l => l.head?) hr
        simpa using this
      exact hc this.symm
    have step : splitMarkerAux ((c :: t) ++ l2) acc =
        splitMarkerAux (t ++ l2) (c :: acc) := by
      simp [splitMarkerAux, hm]
    rw [step, ih l2 (c :: acc) (by simp) (fun h => hnl (by simp [h]))]
    congr 1
    simp

theorem splitMarkerAux_flatten (l : List Char) :
    ∀ acc, (splitMarkerAux l acc).flatten = acc.reverse ++ l := by
  induction l with
  | nil => intro acc; simp [splitMarkerAux_nil]
  | cons c t ih =>
    intro acc
    by_cases h : acc ≠ [] ∧ markerChars.isPrefixOf (c :: t) = true
    · rw [splitMarkerAux_split h.1 h.2]
      simp [ih]
    · have : splitMarkerAux (c :: t) acc = splitMarkerAux t (c :: acc) := by
        simp only [splitMarkerAux]
        rw [if_neg]
        intro hh
        exact h ⟨hh.1, hh.2⟩
      rw [this, ih]
      simp

/-- A whitespace-trimmed single-line text splits into itself alone. -/
theorem splitDiffByFile_single {l : List Char}
    (hnl : '\n' ∉ l) (htrim : trimChars l = l) (hne : l ≠ []) :
    splitDiffByFile l = [l] := by
  have htne : trimChars l ≠ [] := by rw [htrim]; exact hne
  obtain ⟨c, t, rfl⟩ : ∃ c t, l = c :: t := by
    cases l with
    | nil => exact absurd rfl hne
    | cons c t => exact ⟨c, t, rfl⟩
  have hsplit : splitRaw (c :: t) = [c :: t] := by
    unfold splitRaw
    rw [splitMarkerAux_start]
    have : t = t ++ [] := by simp
    rw [this, splitMarkerAux_scan t [] [c] (by simp)
      (fun h => hnl (by simp [h]))]
    simp [splitMarkerAux_nil]
  unfold splitDiffByFile
  rw [if_neg htne]
  simp only [hsplit, List.map_cons, List.map_nil, htrim]
  have : [c :: t].filter (fun s => s ≠ []) = [c :: t] := by simp
  simp [this]

/-- Two single-line segments joined by one newline split into both. -/
theorem splitDiffByFile_two {s1 s2 : List Char}
    (h1 : '\n' ∉ s1) (h2 : '\n' ∉ s2)
    (hm : markerChars.isPrefixOf ('\n' :: s2) = true)
    (ht1 : trimChars s1 = s1) (ht2 : trimChars s2 = s2)
    (hn1 : s1 ≠ []) (hn2 : s2 ≠ []) :
    splitDiffByFile (s1 ++ '\n' :: s2) = [s1, s2] := by
  obtain ⟨c, t, rfl⟩ : ∃ c t, s1 = c :: t := by
    cases s1 with
    | nil => exact absurd rfl hn1
    | cons c t => exact ⟨c, t, rfl⟩
  have hcw : isJsWS c = false := by
    by_contra hcc
    have hcc' : isJsWS c = true := by revert hcc; simp
    have := ht1
    rw [trimChars_cons_ws t hcc'] at this
    have hlen := congrArg List.length this
    have h1' : (trimChars t).length ≤ t.length := by
      have hpre : trimStartChars t <:+ t := List.dropWhile_suffix _
      have h1'' : (trimStartChars t).length ≤ t.length := hpre.length_le
      have hpre2 : trimEndChars (trimStartChars t) <+: trimStartChars t :=
        List.rdropWhile_prefix _ _
      have := hpre2.length_le
      unfold trimChars
      omega
    simp at hlen
    omega
  have htrimne : trimChars ((c :: t) ++ '\n' :: s2) ≠ [] :=
    trimChars_ne_nil_of_mem (by simp) hcw
  have hsplit : splitRaw ((c :: t) ++ '\n' :: s2) = [c :: t, '\n' :: s2] := by
    unfold splitRaw
    have e1 : (c :: t) ++ '\n' :: s2 = c :: (t ++ '\n' :: s2) := by simp
    rw [e1, splitMarkerAux_start,
      splitMarkerAux_scan t ('\n' :: s2) [c] (by simp)
        (fun h => h1 (by simp [h])),
      splitMarkerAux_split (by simp) hm]
    have e2 : s2 = s2 ++ [] := by simp
    rw [e2, splitMarkerAux_scan s2 [] ['\n'] (by simp) h2]
    simp [splitMarkerAux_nil]
  unfold splitDiffByFile
  rw [if_neg htrimne]
  have hws : isJsWS '\n' = true := by decide
  simp only [hsplit, List.map_cons, List.map_nil, ht1,
    trimChars_cons_ws s2 hws, ht2]
  have hfilter : [c :: t, s2].filter (fun s => s ≠ []) = [c :: t, s2] := by
    simp [List.filter, hn2]
  rw [hfilter]
  simp

theorem isPrefixOf_extend {p l m : List Char} (h : p.isPrefixOf l = true) :
    p.isPrefixOf (l ++ m) = true :=
  List.isPrefixOf_iff_prefix.mpr
    ((List.isPrefixOf_iff_prefix.mp h).trans (List.prefix_append l m))

/-- Three single-line segments joined by newlines split into the three. -/
theorem splitDiffByFile_three {s1 s2 s3 : List Char}
    (h1 : '\n' ∉ s1) (h2 : '\n' ∉ s2) (h3 : '\n' ∉ s3)
    (hm2 : markerChars.isPrefixOf ('\n' :: s2) = true)
    (hm3 : markerChars.isPrefixOf ('\n' :: s3) = true)
    (ht1 : trimChars s1 = s1) (ht2 : trimChars s2 = s2) (ht3 : trimChars s3 = s3)
    (hn1 : s1 ≠ []) (hn2 : s2 ≠ []) (hn3 : s3 ≠ []) :
    splitDiffByFile (s1 ++ '\n' :: (s2 ++ '\n' :: s3)) = [s1, s2, s3] := by
  obtain ⟨c, t, rfl⟩ : ∃ c t, s1 = c :: t := by
    cases s1 with
    | nil => exact absurd rfl hn1
    | cons c t => exact ⟨c, t, rfl⟩
  have hcw : isJsWS c = false := by
    by_contra hcc
    have hcc' : isJsWS c = true := by revert hcc; simp
    have := ht1
    rw [trimChars_cons_ws t hcc'] at this
    have hlen := congrArg List.length this
    have h1' : (trimChars t).length ≤ t.length := by
      have hpre : trimStartChars t <:+ t := List.dropWhile_suffix _
      have h1'' : (trimStartChars t).length ≤ t.length := hpre.length_le
      have hpre2 : trimEndChars (trimStartChars t) <+: trimStartChars t :=
        List.rdropWhile_prefix _ _
      have := hpre2.length_le
      unfold trimChars
      omega
    simp at hlen
    omega
  have htrimne : trimChars ((c :: t) ++ '\n' :: (s2 ++ '\n' :: s3)) ≠ [] :=
    trimChars_ne_nil_of_mem (by simp) hcw
  have hm2' : markerChars.isPrefixOf ('\n' :: (s2 ++ '\n' :: s3)) = true := by
    have := isPrefixOf_extend (m := '\n' :: s3) hm2
    simpa using this
  have hsplit : splitRaw ((c :: t) ++ '\n' :: (s2 ++ '\n' :: s3)) =
      [c :: t, '\n' :: s2, '\n' :: s3] := by
    unfold splitRaw
    have e1 : (c :: t) ++ '\n' :: (s2 ++ '\n' :: s3) =
        c :: (t ++ '\n' :: (s2 ++ '\n' :: s3)) := by simp
    rw [e1, splitMarkerAux_start,
      splitMarkerAux_scan t ('\n' :: (s2 ++ '\n' :: s3)) [c] (by simp)
        (fun h => h1 (by simp [h])),
      splitMarkerAux_split (by simp) hm2']
    rw [splitMarkerAux_scan s2 ('\n' :: s3) ['\n'] (by simp) h2,
      splitMarkerAux_split (by simp) hm3]
    have e2 : s3 = s3 ++ [] := by simp
    rw [e2, splitMarkerAux_scan s3 [] ['\n'] (by simp) h3]
    simp [splitMarkerAux_nil]
  unfold splitDiffByFile
  rw [if_neg htrimne]
  have hws : isJsWS '\n' = true := by decide
  simp only [hsplit, List.map_cons, List.map_nil, ht1,
    trimChars_cons_ws s2 hws, trimChars_cons_ws s3 hws, ht2, ht3]
  have hfilter : [c :: t, s2, s3].filter (fun s => s ≠ []) = [c :: t, s2, s3] := by
    simp [List.filter, hn2, hn3]
  rw [hfilter]
  simp

/-! ### Path-extraction lemmas -/

theorem takeWhile_of_no_newline {l : List Char} (h : '\n' ∉ l) :
    l.takeWhile (fun c => c ≠ '\n') = l := by
  refine List.takeWhile_eq_self_iff.mpr fun x hx => ?_
  simp only [decide_eq_true_eq]
  exact fun he => h (he ▸ hx)

theorem pathCapture_single (x : Char) (rest : List Char)
    (hx : lineTerm x = false) :
    pathCapture (x :: (" b/".data ++ rest)) = some [x] := by
  simp [pathCapture, hx, isPrefixOf_append_self]

theorem trimChars_single {x : Char} (hx : isJsWS x = false) :
    trimChars [x] = [x] := by
  have h1 : trimStartChars [x] = [x] := trimStart_cons_neg _ hx
  have h2 : trimEndChars [x] = [x] := by
    rw [trimEndChars_eq_rdropWhile]
    have : [x] = ([] : List Char) ++ [x] := by simp
    rw [this, List.rdropWhile_concat_neg _ _ _ (by simp [hx])]
  simp [trimChars, h1, h2]

theorem pathFromSegment_single (x : Char) (rest : List Char)
    (hx1 : lineTerm x = false) (hx2 : isJsWS x = false)
    (hnl : '\n' ∉ "diff --git a/".data ++ x :: (" b/".data ++ rest)) :
    pathFromSegment ("diff --git a/".data ++ x :: (" b/".data ++ rest)) = [x] := by
  unfold pathFromSegment
  rw [takeWhile_of_no_newline hnl]
  rw [if_pos (isPrefixOf_append_self _ _)]
  have hdrop : ("diff --git a/".data ++ x :: (" b/".data ++ rest)).drop 13 =
      x :: (" b/".data ++ rest) := by
    have h13 : "diff --git a/".data.length = 13 := by decide
    rw [← h13, List.drop_left]
  rw [hdrop, pathCapture_single x rest hx1]
  exact trimChars_single hx2

/-! ### Loop-step lemmas -/

theorem processSegment_excl {st : BuildState} {seg : List Char}
    (h : (pathFromSegment seg ≠ [] ∧ isImageOrHeavyByPath (pathFromSegment seg) = true) ∨
      segmentIsBinary seg = true ∨ byteLength seg > MAX_FILE_DIFF_BYTES)
    (hp : pathFromSegment seg ≠ []) :
    processSegment st seg =
      { st with excludedFiles := st.excludedFiles ++ [pathFromSegment seg] } := by
  simp only [processSegment]
  rw [if_pos h, if_pos hp]

theorem processSegment_fits {st : BuildState} {seg : List Char}
    (h : ¬ ((pathFromSegment seg ≠ [] ∧ isImageOrHeavyByPath (pathFromSegment seg) = true) ∨
      segmentIsBinary seg = true ∨ byteLength seg > MAX_FILE_DIFF_BYTES))
    (hfit : st.totalBytes + byteLength seg ≤ MAX_DIFF_BYTES) :
    processSegment st seg =
      { st with included := st.included ++ [seg],
                totalBytes := st.totalBytes + byteLength seg } := by
  simp only [processSegment]
  rw [if_neg h, if_pos hfit]

theorem processSegment_trunc {st : BuildState} {seg : List Char}
    (h : ¬ ((pathFromSegment seg ≠ [] ∧ isImageOrHeavyByPath (pathFromSegment seg) = true) ∨
      segmentIsBinary seg = true ∨ byteLength seg > MAX_FILE_DIFF_BYTES))
    (hover : ¬ st.totalBytes + byteLength seg ≤ MAX_DIFF_BYTES)
    (hroom : MAX_DIFF_BYTES - st.totalBytes > 0)
    (hp : pathFromSegment seg ≠ []) :
    processSegment st seg =
      { st with included := st.included ++ [seg.take (MAX_DIFF_BYTES - st.totalBytes)],
                totalBytes := MAX_DIFF_BYTES,
                didTruncate := true,
                excludedFiles := st.excludedFiles ++ [pathFromSegment seg] } := by
  simp only [processSegment]
  rw [if_neg h, if_neg hover, if_pos hroom, if_pos hp]

/-! ### Claim C6: git failure yields the empty result -/

/-- C6: whenever the underlying `git diff` command fails, `getDiffForJudge`
returns the empty result — empty diff, no excluded files, `truncated = false`,
with `base` and `head` echoing its arguments — instead of propagating the
error. -/
theorem c6_git_failure_empty_result (base head : String) :
    getDiffForJudge base head none =
      { diff := [], excludedFiles := [], truncated := false,
        base := base, head := head } := rfl

/-! ### Claim C8: confidence normalisation -/

/-- C8 (amended): for a finite confidence value `c`, `callJudge` reports
`c / 100` when `c > 1` and `c` itself otherwise; the normalised value lies
within 0–1 whenever `0 ≤ c ≤ 100` (for `c` outside that range it does not,
see the counterexample). -/
theorem c8_confidence_normalization (c : ℚ) (h0 : 0 ≤ c) (h100 : c ≤ 100) :
    normalizeConfidence c = (if c > 1 then c / 100 else c) ∧
      0 ≤ normalizeConfidence c ∧ normalizeConfidence c ≤ 1 := by
  refine ⟨rfl, ?_, ?_⟩ <;> unfold normalizeConfidence <;> split <;>
    rename_i h <;> linarith

/-- C8 counterexample: a confidence of 150 is normalised to `3 / 2`, which
does not lie within 0–1, refuting "the normalized value always lies within
0–1". -/
theorem c8_counterexample :
    normalizeConfidence 150 = 3 / 2 ∧ ¬ normalizeConfidence 150 ≤ 1 := by
  norm_num [normalizeConfidence]

/-- Witness for C8: the amended statement applied at the concrete
confidence 50. -/
theorem c8_witness :
    (0 : ℚ) ≤ 50 ∧ (50 : ℚ) ≤ 100 ∧
      (normalizeConfidence 50 = (if (50 : ℚ) > 1 then 50 / 100 else 50) ∧
        0 ≤ normalizeConfidence 50 ∧ normalizeConfidence 50 ≤ 1) :=
  ⟨by norm_num, by norm_num,
    c8_confidence_normalization 50 (by norm_num) (by norm_num)⟩

/-! ### Claim C10: the judge is called with the last extracted reference -/

theorem runLoop_eq_getLast {allIds : List (List Char)} {valid : List Char → Bool} :
    ∀ {l : List (List Char)} {r : List Char}, l.find? valid = some r →
      runLoop allIds valid l = allIds.getLast? := by
  intro l
  induction l with
  | nil => intro r h; simp at h
  | cons id rest ih =>
    intro r h
    by_cases hv : valid id
    · simp [runLoop, hv]
    · rw [List.find?_cons_of_neg _ hv] at h
      simp [runLoop, hv, ih h]

/-- C10: whenever the judge step runs (some extracted reference validates),
the reference sent to the judge endpoint is `ids[ids.length - 1]`, the last
extracted reference — not necessarily the one that validated; whenever the
first validating reference differs from the last extracted one, the judge
reference differs from it. -/
theorem c10_judge_uses_last_ref (ids : List (List Char))
    (valid : List Char → Bool) (r : List Char)
    (h : ids.find? valid = some r) :
    judgeRefForRun ids valid = ids.getLast? ∧
      ∀ x, ids.getLast? = some x → r ≠ x →
        judgeRefForRun ids valid ≠ some r := by
  have h1 : judgeRefForRun ids valid = ids.getLast? := runLoop_eq_getLast h
  refine ⟨h1, fun x hx hne => ?_⟩
  rw [h1, hx]
  intro hcontra
  exact hne (Option.some_injective _ hcontra).symm

/-- Witness for C10: with extracted references `["a", "b"]` where only `"a"`
validates, the judge is called with `"b"`, not the validated `"a"`. -/
theorem c10_witness :
    (["a".data, "b".data].find? (fun s => s = "a".data) = some "a".data) ∧
      (judgeRefForRun ["a".data, "b".data] (fun s => s = "a".data) =
          ["a".data, "b".data].getLast? ∧
        ∀ x, ["a".data, "b".data].getLast? = some x → "a".data ≠ x →
          judgeRefForRun ["a".data, "b".data] (fun s => s = "a".data) ≠
            some "a".data) :=
  ⟨by decide,
    c10_judge_uses_last_ref ["a".data, "b".data] (fun s => s = "a".data)
      "a".data (by decide)⟩

/-! ### Concrete diff sections used as test inputs

`mkSeg x k pad` is a single-line diff section `diff --git a/x b/x` whose
path is the single character `x`, followed by `k` copies of a padding
character (so its byte length can be chosen freely). -/

def mkSeg (x : Char) (k : Nat) (pad : Char) : List Char :=
  "diff --git a/".data ++ x :: (" b/".data ++ (x :: List.replicate k pad))

theorem not_mem_mkSeg {c x pad : Char} {k : Nat}
    (h1 : c ∉ "diff --git a/".data) (h2 : c ≠ x)
    (h3 : c ∉ " b/".data) (h4 : c ≠ pad) : c ∉ mkSeg x k pad := by
  unfold mkSeg
  intro h
  rcases List.mem_append.mp h with h | h
  · exact h1 h
  rcases List.mem_cons.mp h with h | h
  · exact h2 h
  rcases List.mem_append.mp h with h | h
  · exact h3 h
  rcases List.mem_cons.mp h with h | h
  · exact h2 h
  · exact h4 (List.eq_of_mem_replicate h)

theorem byteLength_mkSeg (x : Char) (k : Nat) (pad : Char) :
    byteLength (mkSeg x k pad) = 16 + 2 * charBytes x + k * charBytes pad := by
  have h2 : byteLength (x :: (" b/".data ++ (x :: List.replicate k pad))) =
      charBytes x + byteLength (" b/".data ++ (x :: List.replicate k pad)) :=
    byteLength_cons _ _
  have h3 : byteLength (" b/".data ++ (x :: List.replicate k pad)) =
      byteLength " b/".data + byteLength (x :: List.replicate k pad) :=
    byteLength_append _ _
  have h4 : byteLength (x :: List.replicate k pad) =
      charBytes x + byteLength (List.replicate k pad) := byteLength_cons _ _
  have h5 := byteLength_replicate k pad
  have hA : byteLength "diff --git a/".data = 13 := by decide
  have hB : byteLength " b/".data = 3 := by decide
  unfold mkSeg
  rw [byteLength_append, hA, h2, h3, h4, h5, hB]
  ring

theorem trimChars_mkSeg (x : Char) (k : Nat) (pad : Char)
    (_hx : isJsWS x = false) (hp : isJsWS pad = false) :
    trimChars (mkSeg x (k + 1) pad) = mkSeg x (k + 1) pad := by
  have e : mkSeg x (k + 1) pad =
      'd' :: (("iff --git a/".data ++
        x :: (" b/".data ++ (x :: List.replicate k pad))) ++ [pad]) := by
    unfold mkSeg
    rw [List.replicate_succ']
    have hd : "diff --git a/".data = 'd' :: "iff --git a/".data := by decide
    rw [hd]
    simp
  rw [e]
  exact trimChars_shape _ (by decide) hp

theorem mkSeg_ne_nil (x : Char) (k : Nat) (pad : Char) : mkSeg x k pad ≠ [] := by
  unfold mkSeg
  simp

theorem pathFromSegment_mkSeg (x : Char) (k : Nat) (pad : Char)
    (hx1 : lineTerm x = false) (hx2 : isJsWS x = false)
    (hnlx : x ≠ '\n') (hnlp : pad ≠ '\n') :
    pathFromSegment (mkSeg x k pad) = [x] := by
  have hnl : '\n' ∉ mkSeg x k pad :=
    not_mem_mkSeg (by decide) (fun h => hnlx h.symm) (by decide)
      (fun h => hnlp h.symm)
  have e : mkSeg x k pad = "diff --git a/".data ++
      x :: (" b/".data ++ (x :: List.replicate k pad)) := rfl
  rw [e] at hnl ⊢
  exact pathFromSegment_single x _ hx1 hx2 hnl

theorem segmentIsBinary_mkSeg (x : Char) (k : Nat) (pad : Char)
    (hx : x ≠ 'B') (hp : pad ≠ 'B') :
    segmentIsBinary (mkSeg x k pad) = false := by
  unfold segmentIsBinary
  have hB : ('B' : Char) ∈ "Binary files ".data := by decide
  have hnot : ('B' : Char) ∉ mkSeg x k pad :=
    not_mem_mkSeg (by decide) (fun h => hx h.symm) (by decide)
      (fun h => hp h.symm)
  rw [containsSub_eq_false_of_not_mem hB hnot]
  simp

theorem marker_isPrefixOf_newline_mkSeg (x : Char) (k : Nat) (pad : Char) :
    markerChars.isPrefixOf ('\n' :: mkSeg x k pad) = true := by
  rw [List.isPrefixOf_iff_prefix, markerChars_eq]
  have e : mkSeg x k pad = "diff --git ".data ++
      ("a/".data ++ x :: (" b/".data ++ (x :: List.replicate k pad))) := by
    unfold mkSeg
    have h2 : "diff --git a/".data = "diff --git ".data ++ "a/".data := by decide
    rw [h2]
    simp
  rw [e]
  exact List.cons_prefix_cons.mpr ⟨rfl, List.prefix_append _ _⟩

theorem newline_not_mem_mkSeg (x : Char) (k : Nat) (pad : Char)
    (hx : x ≠ '\n') (hp : pad ≠ '\n') : '\n' ∉ mkSeg x k pad :=
  not_mem_mkSeg (by decide) (fun h => hx h.symm) (by decide)
    (fun h => hp h.symm)

/-! ### Claim C1: total byte cap

Two plain-text sections of exactly 1 MiB each are both admitted whole
(1 MiB + 1 MiB = 2 MiB fits the budget), but the rejoining separator adds
one more byte, so the resulting diff is 2 097 153 bytes. -/

/-- A 1 048 576-byte single-line text section with path `f`. -/
def cSeg1 : List Char := mkSeg 'f' 1048558 'x'

/-- A 1 048 576-byte single-line text section with path `g`. -/
def cSeg2 : List Char := mkSeg 'g' 1048558 'x'

/-- A raw diff of two 1 MiB sections separated by one newline. -/
def cRaw12 : List Char := cSeg1 ++ '\n' :: cSeg2

theorem byteLength_cSeg1 : byteLength cSeg1 = 1048576 := by
  unfold cSeg1
  rw [byteLength_mkSeg]
  norm_num [show charBytes 'f' = 1 by decide, show charBytes 'x' = 1 by decide]

theorem byteLength_cSeg2 : byteLength cSeg2 = 1048576 := by
  unfold cSeg2
  rw [byteLength_mkSeg]
  norm_num [show charBytes 'g' = 1 by decide, show charBytes 'x' = 1 by decide]

theorem trimChars_cSeg1 : trimChars cSeg1 = cSeg1 :=
  trimChars_mkSeg 'f' 1048557 'x' (by decide) (by decide)

theorem trimChars_cSeg2 : trimChars cSeg2 = cSeg2 :=
  trimChars_mkSeg 'g' 1048557 'x' (by decide) (by decide)

theorem splitDiffByFile_cRaw12 : splitDiffByFile cRaw12 = [cSeg1, cSeg2] :=
  splitDiffByFile_two
    (newline_not_mem_mkSeg 'f' _ 'x' (by decide) (by decide))
    (newline_not_mem_mkSeg 'g' _ 'x' (by decide) (by decide))
    (marker_isPrefixOf_newline_mkSeg 'g' _ 'x')
    trimChars_cSeg1 trimChars_cSeg2
    (mkSeg_ne_nil _ _ _) (mkSeg_ne_nil _ _ _)

theorem notExcluded_cSeg1 :
    ¬ ((pathFromSegment cSeg1 ≠ [] ∧
        isImageOrHeavyByPath (pathFromSegment cSeg1) = true) ∨
      segmentIsBinary cSeg1 = true ∨
      byteLength cSeg1 > MAX_FILE_DIFF_BYTES) := by
  have hpath : pathFromSegment cSeg1 = ['f'] :=
    pathFromSegment_mkSeg 'f' _ 'x' (by decide) (by decide) (by decide) (by decide)
  have hbin : segmentIsBinary cSeg1 = false :=
    segmentIsBinary_mkSeg 'f' _ 'x' (by decide) (by decide)
  intro h
  rcases h with ⟨_, hi⟩ | hb | hs
  · rw [hpath, show isImageOrHeavyByPath ['f'] = false by decide] at hi
    exact Bool.false_ne_true hi
  · rw [hbin] at hb
    exact Bool.false_ne_true hb
  · rw [byteLength_cSeg1] at hs
    exact absurd hs (by decide)

theorem notExcluded_cSeg2 :
    ¬ ((pathFromSegment cSeg2 ≠ [] ∧
        isImageOrHeavyByPath (pathFromSegment cSeg2) = true) ∨
      segmentIsBinary cSeg2 = true ∨
      byteLength cSeg2 > MAX_FILE_DIFF_BYTES) := by
  have hpath : pathFromSegment cSeg2 = ['g'] :=
    pathFromSegment_mkSeg 'g' _ 'x' (by decide) (by decide) (by decide) (by decide)
  have hbin : segmentIsBinary cSeg2 = false :=
    segmentIsBinary_mkSeg 'g' _ 'x' (by decide) (by decide)
  intro h
  rcases h with ⟨_, hi⟩ | hb | hs
  · rw [hpath, show isImageOrHeavyByPath ['g'] = false by decide] at hi
    exact Bool.false_ne_true hi
  · rw [hbin] at hb
    exact Bool.false_ne_true hb
  · rw [byteLength_cSeg2] at hs
    exact absurd hs (by decide)

theorem processSegments_cRaw12 :
    processSegments [cSeg1, cSeg2] = ⟨[], [cSeg1, cSeg2], 2097152, false⟩ := by
  have hst1 : processSegment initState cSeg1 = ⟨[], [cSeg1], 1048576, false⟩ := by
    rw [processSegment_fits notExcluded_cSeg1
      (by rw [show initState.totalBytes = 0 from rfl, byteLength_cSeg1]; decide)]
    simp [initState, byteLength_cSeg1]
  have hst2 : processSegment ⟨[], [cSeg1], 1048576, false⟩ cSeg2 =
      ⟨[], [cSeg1, cSeg2], 2097152, false⟩ := by
    rw [processSegment_fits notExcluded_cSeg2
      (by rw [show (BuildState.mk [] [cSeg1] 1048576 false).totalBytes = 1048576
          from rfl, byteLength_cSeg2]; decide)]
    simp [byteLength_cSeg2]
  unfold processSegments
  simp only [List.foldl_cons, List.foldl_nil, hst1, hst2]

/-- C1 (code bug): on a raw diff of two plain-text sections of exactly
1 048 576 UTF-8 bytes each, the diff produced by `getDiffForJudge` has
2 097 153 bytes — one more than `MAX_DIFF_BYTES` — because the newline
separators inserted when rejoining admitted segments are not counted
against the budget. -/
theorem c1_total_cap_violated :
    byteLength (getDiffForJudge "base" "head" (some cRaw12)).diff = 2097153 ∧
      ¬ byteLength (getDiffForJudge "base" "head" (some cRaw12)).diff ≤
          MAX_DIFF_BYTES := by
  have hdiff : (getDiffForJudge "base" "head" (some cRaw12)).diff =
      cSeg1 ++ '\n' :: cSeg2 := by
    simp only [getDiffForJudge, splitDiffByFile_cRaw12, processSegments_cRaw12]
    simp [List.intercalate, List.intersperse]
  have hbl : byteLength (cSeg1 ++ '\n' :: cSeg2) = 2097153 := by
    rw [byteLength_append, byteLength_cons, byteLength_cSeg1, byteLength_cSeg2]
    decide
  rw [hdiff, hbl]
  exact ⟨rfl, by decide⟩

/-! ### Claim C2: a single oversized section -/

/-- A single-line text section of exactly 3 000 000 UTF-8 bytes. -/
def cSeg3MB : List Char := mkSeg 'f' 2999982 'x'

theorem byteLength_cSeg3MB : byteLength cSeg3MB = 3000000 := by
  unfold cSeg3MB
  rw [byteLength_mkSeg]
  norm_num [show charBytes 'f' = 1 by decide, show charBytes 'x' = 1 by decide]

theorem splitDiffByFile_cSeg3MB : splitDiffByFile cSeg3MB = [cSeg3MB] :=
  splitDiffByFile_single
    (newline_not_mem_mkSeg 'f' _ 'x' (by decide) (by decide))
    (trimChars_mkSeg 'f' 2999981 'x' (by decide) (by decide))
    (mkSeg_ne_nil _ _ _)

theorem pathFromSegment_cSeg3MB : pathFromSegment cSeg3MB = ['f'] :=
  pathFromSegment_mkSeg 'f' _ 'x' (by decide) (by decide) (by decide) (by decide)

/-- Full evaluation of the pipeline on the 3 MB single-section diff: the
section is excluded as oversized, so the diff is empty. -/
theorem getDiffForJudge_cSeg3MB :
    getDiffForJudge "base" "head" (some cSeg3MB) =
      { diff := [], excludedFiles := [['f']], truncated := true,
        base := "base", head := "head" } := by
  have hex : (pathFromSegment cSeg3MB ≠ [] ∧
      isImageOrHeavyByPath (pathFromSegment cSeg3MB) = true) ∨
      segmentIsBinary cSeg3MB = true ∨
      byteLength cSeg3MB > MAX_FILE_DIFF_BYTES :=
    Or.inr (Or.inr (by rw [byteLength_cSeg3MB]; decide))
  have hstep : processSegment initState cSeg3MB = ⟨[['f']], [], 0, false⟩ := by
    rw [processSegment_excl hex (by rw [pathFromSegment_cSeg3MB]; decide)]
    simp [initState, pathFromSegment_cSeg3MB]
  simp only [getDiffForJudge, splitDiffByFile_cSeg3MB]
  unfold processSegments
  simp only [List.foldl_cons, List.foldl_nil, hstep]
  rw [byteLength_cSeg3MB]
  simp [List.intercalate, dedupFirst, dedupFirstAux]
  decide

/-- C2 (amended): a raw diff that is a single 3 000 000-byte file section
with a resolvable path is excluded in full as oversized — the produced diff
is empty (not the first 2 MiB of the section), `excludedFiles` contains the
file's path, and `truncated = true` (the raw diff exceeds 2 MiB). -/
theorem c2_oversized_single_section (raw p : List Char) (b h : String)
    (hsplit : splitDiffByFile raw = [raw])
    (hsize : byteLength raw = 3000000)
    (hpath : pathFromSegment raw = p) (hp : p ≠ []) :
    getDiffForJudge b h (some raw) =
      { diff := [], excludedFiles := [p], truncated := true,
        base := b, head := h } := by
  have hex : (pathFromSegment raw ≠ [] ∧
      isImageOrHeavyByPath (pathFromSegment raw) = true) ∨
      segmentIsBinary raw = true ∨
      byteLength raw > MAX_FILE_DIFF_BYTES :=
    Or.inr (Or.inr (by rw [hsize]; decide))
  have hstep : processSegment initState raw = ⟨[p], [], 0, false⟩ := by
    rw [processSegment_excl hex (by rw [hpath]; exact hp)]
    simp [initState, hpath]
  simp only [getDiffForJudge, hsplit]
  unfold processSegments
  simp only [List.foldl_cons, List.foldl_nil, hstep]
  rw [hsize]
  simp [List.intercalate, dedupFirst, dedupFirstAux]
  decide

/-- C2 counterexample: on the 3 MB single-section diff, the produced diff is
empty, while the first 2 MiB of that section is not empty — so the output is
not "the first 2 MiB of that section" as the claim states. -/
theorem c2_counterexample :
    (getDiffForJudge "base" "head" (some cSeg3MB)).diff = [] ∧
      cSeg3MB.take 2097152 ≠ [] := by
  constructor
  · rw [getDiffForJudge_cSeg3MB]
  · have h1 : cSeg3MB ≠ [] := mkSeg_ne_nil _ _ _
    intro h
    rcases List.take_eq_nil_iff.mp h with h' | h'
    · exact absurd h' (by norm_num)
    · exact h1 h'

/-- Witness for C2: the amended statement applied to the concrete 3 MB
section. -/
theorem c2_witness :
    splitDiffByFile cSeg3MB = [cSeg3MB] ∧ byteLength cSeg3MB = 3000000 ∧
      pathFromSegment cSeg3MB = ['f'] ∧ (['f'] : List Char) ≠ [] ∧
      getDiffForJudge "base" "head" (some cSeg3MB) =
        { diff := [], excludedFiles := [['f']], truncated := true,
          base := "base", head := "head" } :=
  ⟨splitDiffByFile_cSeg3MB, byteLength_cSeg3MB, pathFromSegment_cSeg3MB,
    by decide,
    c2_oversized_single_section cSeg3MB ['f'] "base" "head"
      splitDiffByFile_cSeg3MB byteLength_cSeg3MB pathFromSegment_cSeg3MB
      (by decide)⟩


/-! ### Claim C3: the truncation step -/

/-- A 1 048 556-byte single-line text section with path `g`. -/
def cSeg2b : List Char := mkSeg 'g' 1048538 'x'

/-- A 39-byte single-line text section with path `h`, padded with seven
copies of the three-byte character `€`. -/
def cSegE : List Char := mkSeg 'h' 7 '€'

theorem byteLength_cSeg2b : byteLength cSeg2b = 1048556 := by
  unfold cSeg2b
  rw [byteLength_mkSeg]
  norm_num [show charBytes 'g' = 1 by decide, show charBytes 'x' = 1 by decide]

theorem trimChars_cSeg2b : trimChars cSeg2b = cSeg2b :=
  trimChars_mkSeg 'g' 1048537 'x' (by decide) (by decide)

theorem notExcluded_cSeg2b :
    ¬ ((pathFromSegment cSeg2b ≠ [] ∧
        isImageOrHeavyByPath (pathFromSegment cSeg2b) = true) ∨
      segmentIsBinary cSeg2b = true ∨
      byteLength cSeg2b > MAX_FILE_DIFF_BYTES) := by
  have hpath : pathFromSegment cSeg2b = ['g'] :=
    pathFromSegment_mkSeg 'g' _ 'x' (by decide) (by decide) (by decide) (by decide)
  have hbin : segmentIsBinary cSeg2b = false :=
    segmentIsBinary_mkSeg 'g' _ 'x' (by decide) (by decide)
  intro h
  rcases h with ⟨_, hi⟩ | hb | hs
  · rw [hpath, show isImageOrHeavyByPath ['g'] = false by decide] at hi
    exact Bool.false_ne_true hi
  · rw [hbin] at hb
    exact Bool.false_ne_true hb
  · rw [byteLength_cSeg2b] at hs
    exact absurd hs (by decide)

/-- The raw diff for the C3 counterexample: two large text sections filling
the budget up to 20 remaining bytes, then a section with multi-byte
characters. -/
def cRaw3 : List Char := cSeg1 ++ '\n' :: (cSeg2b ++ '\n' :: cSegE)

theorem splitDiffByFile_cRaw3 : splitDiffByFile cRaw3 = [cSeg1, cSeg2b, cSegE] :=
  splitDiffByFile_three
    (newline_not_mem_mkSeg 'f' _ 'x' (by decide) (by decide))
    (newline_not_mem_mkSeg 'g' _ 'x' (by decide) (by decide))
    (newline_not_mem_mkSeg 'h' _ '€' (by decide) (by decide))
    (marker_isPrefixOf_newline_mkSeg 'g' _ 'x')
    (marker_isPrefixOf_newline_mkSeg 'h' _ '€')
    trimChars_cSeg1 trimChars_cSeg2b
    (trimChars_mkSeg 'h' 6 '€' (by decide) (by decide))
    (mkSeg_ne_nil _ _ _) (mkSeg_ne_nil _ _ _) (mkSeg_ne_nil _ _ _)

theorem step_cSeg1 : processSegment initState cSeg1 =
    ⟨[], [cSeg1], 1048576, false⟩ := by
  rw [processSegment_fits notExcluded_cSeg1
    (by rw [show initState.totalBytes = 0 from rfl, byteLength_cSeg1]; decide)]
  simp [initState, byteLength_cSeg1]

theorem step_cSeg2b : processSegment ⟨[], [cSeg1], 1048576, false⟩ cSeg2b =
    ⟨[], [cSeg1, cSeg2b], 2097132, false⟩ := by
  rw [processSegment_fits notExcluded_cSeg2b
    (by rw [show (BuildState.mk [] [cSeg1] 1048576 false).totalBytes = 1048576
        from rfl, byteLength_cSeg2b]; decide)]
  simp [byteLength_cSeg2b]

theorem step_cSegE : processSegment ⟨[], [cSeg1, cSeg2b], 2097132, false⟩ cSegE =
    ⟨[['h']], [cSeg1, cSeg2b, cSegE.take 20], 2097152, true⟩ := by
  rw [processSegment_trunc (by decide) (by decide) (by decide) (by decide)]
  have hpath : pathFromSegment cSegE = ['h'] := by decide
  have hrem : MAX_DIFF_BYTES - (2097132 : Nat) = 20 := by decide
  simp [hpath, hrem]
  decide

theorem processSegments_first_two :
    processSegments [cSeg1, cSeg2b] = ⟨[], [cSeg1, cSeg2b], 2097132, false⟩ := by
  unfold processSegments
  simp only [List.foldl_cons, List.foldl_nil, step_cSeg1, step_cSeg2b]

theorem processSegments_cRaw3 :
    processSegments [cSeg1, cSeg2b, cSegE] =
      ⟨[['h']], [cSeg1, cSeg2b, cSegE.take 20], 2097152, true⟩ := by
  unfold processSegments
  simp only [List.foldl_cons, List.foldl_nil, step_cSeg1, step_cSeg2b, step_cSegE]

/-- C3 counterexample: inside a concrete run of the budgeting loop, the
third segment is not excluded, does not fit, and the remaining headroom is
20 bytes, yet the admitted prefix (`seg.slice(0, 20)`, which counts code
units, not bytes) has UTF-8 byte length 24 ≠ 20 — refuting "the admitted
prefix of that segment has UTF-8 byte length exactly equal to that
headroom". -/
theorem c3_counterexample :
    splitDiffByFile cRaw3 = [cSeg1, cSeg2b, cSegE] ∧
      (processSegments [cSeg1, cSeg2b]).totalBytes = 2097132 ∧
      ¬ ((pathFromSegment cSegE ≠ [] ∧
          isImageOrHeavyByPath (pathFromSegment cSegE) = true) ∨
        segmentIsBinary cSegE = true ∨
        byteLength cSegE > MAX_FILE_DIFF_BYTES) ∧
      2097132 + byteLength cSegE > MAX_DIFF_BYTES ∧
      MAX_DIFF_BYTES - 2097132 = 20 ∧
      (processSegments [cSeg1, cSeg2b, cSegE]).included =
        [cSeg1, cSeg2b, cSegE.take 20] ∧
      byteLength (cSegE.take 20) = 24 :=
  ⟨splitDiffByFile_cRaw3,
    by rw [processSegments_first_two],
    by decide, by decide, by decide,
    by rw [processSegments_cRaw3],
    by decide⟩

/-- C3 (amended): when a non-excluded segment does not fit and the remaining
headroom is positive, the admitted prefix consists of the first `headroom`
characters of the segment (its UTF-8 byte length equals the headroom exactly
when those characters are single-byte, but can exceed it otherwise); the
running total is set to exactly 2 MiB, the result is marked truncated, and
the truncated file's path (here assumed resolvable) is also appended to
`excludedFiles`. -/
theorem c3_truncation_step (st : BuildState) (seg : List Char)
    (hex : ¬ ((pathFromSegment seg ≠ [] ∧
        isImageOrHeavyByPath (pathFromSegment seg) = true) ∨
      segmentIsBinary seg = true ∨
      byteLength seg > MAX_FILE_DIFF_BYTES))
    (hover : st.totalBytes + byteLength seg > MAX_DIFF_BYTES)
    (hroom : MAX_DIFF_BYTES - st.totalBytes > 0)
    (hp : pathFromSegment seg ≠ []) :
    (processSegment st seg).included =
        st.included ++ [seg.take (MAX_DIFF_BYTES - st.totalBytes)] ∧
      (processSegment st seg).totalBytes = MAX_DIFF_BYTES ∧
      (processSegment st seg).didTruncate = true ∧
      (processSegment st seg).excludedFiles =
        st.excludedFiles ++ [pathFromSegment seg] ∧
      ((∀ c ∈ seg, charBytes c = 1) →
        byteLength (seg.take (MAX_DIFF_BYTES - st.totalBytes)) =
          MAX_DIFF_BYTES - st.totalBytes) := by
  rw [processSegment_trunc hex (by omega) hroom hp]
  refine ⟨rfl, rfl, rfl, rfl, fun hascii => ?_⟩
  have h1 : ∀ c ∈ seg.take (MAX_DIFF_BYTES - st.totalBytes), charBytes c = 1 :=
    fun c hc => hascii c (List.take_subset _ _ hc)
  have h2 : byteLength seg = seg.length := byteLength_eq_length hascii
  rw [byteLength_eq_length h1, List.length_take]
  omega

/-- Witness for C3: the amended truncation step applied at a concrete
reachable state (budget already at 2 097 132 bytes) and the concrete
segment `cSegE`. -/
theorem c3_witness :
    ¬ ((pathFromSegment cSegE ≠ [] ∧
        isImageOrHeavyByPath (pathFromSegment cSegE) = true) ∨
      segmentIsBinary cSegE = true ∨
      byteLength cSegE > MAX_FILE_DIFF_BYTES) ∧
      (BuildState.mk [] [] 2097132 false).totalBytes +
          byteLength cSegE > MAX_DIFF_BYTES ∧
      MAX_DIFF_BYTES - (BuildState.mk [] [] 2097132 false).totalBytes > 0 ∧
      pathFromSegment cSegE ≠ [] ∧
      ((processSegment ⟨[], [], 2097132, false⟩ cSegE).included =
          [] ++ [cSegE.take (MAX_DIFF_BYTES - (BuildState.mk [] [] 2097132 false).totalBytes)] ∧
        (processSegment ⟨[], [], 2097132, false⟩ cSegE).totalBytes =
          MAX_DIFF_BYTES ∧
        (processSegment ⟨[], [], 2097132, false⟩ cSegE).didTruncate = true ∧
        (processSegment ⟨[], [], 2097132, false⟩ cSegE).excludedFiles =
          [] ++ [pathFromSegment cSegE] ∧
        ((∀ c ∈ cSegE, charBytes c = 1) →
          byteLength (cSegE.take
              (MAX_DIFF_BYTES - (BuildState.mk [] [] 2097132 false).totalBytes)) =
            MAX_DIFF_BYTES - (BuildState.mk [] [] 2097132 false).totalBytes)) :=
  ⟨by decide, by decide, by decide, by decide,
    c3_truncation_step ⟨[], [], 2097132, false⟩ cSegE
      (by decide) (by decide) (by decide) (by decide)⟩

/-! ### Claim C4: three sections, one image -/

/-- Like `mkSeg`, but with an arbitrary path `p`: a single-line diff section
`diff --git a/<p> b/<p>` followed by `k` copies of a padding character. -/
def mkSegP (p : List Char) (k : Nat) (pad : Char) : List Char :=
  "diff --git a/".data ++ (p ++ (" b/".data ++ (p ++ List.replicate k pad)))

theorem not_mem_mkSegP {c pad : Char} {p : List Char} {k : Nat}
    (h1 : c ∉ "diff --git a/".data) (h2 : c ∉ p)
    (h3 : c ∉ " b/".data) (h4 : c ≠ pad) : c ∉ mkSegP p k pad := by
  unfold mkSegP
  intro h
  rcases List.mem_append.mp h with h | h
  · exact h1 h
  rcases List.mem_append.mp h with h | h
  · exact h2 h
  rcases List.mem_append.mp h with h | h
  · exact h3 h
  rcases List.mem_append.mp h with h | h
  · exact h2 h
  · exact h4 (List.eq_of_mem_replicate h)

theorem byteLength_mkSegP (p : List Char) (k : Nat) (pad : Char) :
    byteLength (mkSegP p k pad) = 16 + 2 * byteLength p + k * charBytes pad := by
  have h2 : byteLength (p ++ (" b/".data ++ (p ++ List.replicate k pad))) =
      byteLength p + byteLength (" b/".data ++ (p ++ List.replicate k pad)) :=
    byteLength_append _ _
  have h3 : byteLength (" b/".data ++ (p ++ List.replicate k pad)) =
      byteLength " b/".data + byteLength (p ++ List.replicate k pad) :=
    byteLength_append _ _
  have h4 : byteLength (p ++ List.replicate k pad) =
      byteLength p + byteLength (List.replicate k pad) := byteLength_append _ _
  have h5 := byteLength_replicate k pad
  have hA : byteLength "diff --git a/".data = 13 := by decide
  have hB : byteLength " b/".data = 3 := by decide
  unfold mkSegP
  rw [byteLength_append, hA, h2, h3, h4, h5, hB]
  ring

theorem mkSegP_ne_nil (p : List Char) (k : Nat) (pad : Char) :
    mkSegP p k pad ≠ [] := by
  unfold mkSegP
  simp

theorem trimChars_mkSegP (p : List Char) (k : Nat) (pad : Char)
    (hp : isJsWS pad = false) :
    trimChars (mkSegP p (k + 1) pad) = mkSegP p (k + 1) pad := by
  have e : mkSegP p (k + 1) pad =
      'd' :: (("iff --git a/".data ++
        (p ++ (" b/".data ++ (p ++ List.replicate k pad)))) ++ [pad]) := by
    unfold mkSegP
    rw [List.replicate_succ']
    have hd : "diff --git a/".data = 'd' :: "iff --git a/".data := by decide
    rw [hd]
    simp
  rw [e]
  exact trimChars_shape _ (by decide) hp

theorem marker_isPrefixOf_newline_mkSegP (p : List Char) (k : Nat) (pad : Char) :
    markerChars.isPrefixOf ('\n' :: mkSegP p k pad) = true := by
  rw [List.isPrefixOf_iff_prefix, markerChars_eq]
  have e : mkSegP p k pad = "diff --git ".data ++
      ("a/".data ++ (p ++ (" b/".data ++ (p ++ List.replicate k pad)))) := by
    unfold mkSegP
    have h2 : "diff --git a/".data = "diff --git ".data ++ "a/".data := by decide
    rw [h2]
    simp
  rw [e]
  exact List.cons_prefix_cons.mpr ⟨rfl, List.prefix_append _ _⟩

/-- One step of the lazy capture when the current character matches `.`
and ` b/` does not follow yet. -/
theorem pathCapture_cons_of_ne (c : Char) (rest : List Char)
    (hc : lineTerm c = false)
    (hnp : " b/".data.isPrefixOf rest = false) :
    pathCapture (c :: rest) =
      match pathCapture rest with
      | some p => some (c :: p)
      | none => none := by
  simp only [pathCapture, hc, hnp, Bool.false_eq_true, if_false]

/-- The lazy regex capture stops at the first ` b/`; when the path itself
contains no space, the capture is the whole path. -/
theorem pathCapture_no_space : ∀ (p : List Char) (rest : List Char),
    p ≠ [] → ' ' ∉ p → (∀ c ∈ p, lineTerm c = false) →
    pathCapture (p ++ (" b/".data ++ rest)) = some p := by
  intro p
  induction p with
  | nil => intro rest h; exact absurd rfl h
  | cons c t ih =>
    intro rest _ hsp hlt
    cases t with
    | nil =>
      simpa using pathCapture_single c rest (hlt c (by simp))
    | cons d t' =>
      have hc : lineTerm c = false := hlt c (by simp)
      have hd : d ≠ ' ' := by
        intro h
        exact hsp (by simp [h])
      have hnp : " b/".data.isPrefixOf ((d :: t') ++ (" b/".data ++ rest)) =
          false := by
        by_contra h
        have h' : " b/".data.isPrefixOf ((d :: t') ++ (" b/".data ++ rest)) =
            true := by revert h; simp
        have hpre := List.isPrefixOf_iff_prefix.mp h'
        have hsp3 : " b/".data = ' ' :: "b/".data := by decide
        rw [hsp3, List.cons_append, List.cons_prefix_cons] at hpre
        exact hd hpre.1.symm
      have hrec := ih rest (by simp) (fun h => hsp (by simp [h]))
        (fun x hx => hlt x (by simp [hx]))
      have e : (c :: d :: t') ++ (" b/".data ++ rest) =
          c :: ((d :: t') ++ (" b/".data ++ rest)) := by simp
      rw [e, pathCapture_cons_of_ne c _ hc hnp, hrec]

/-- Extracting the path of a `mkSegP` section recovers `p`. -/
theorem pathFromSegment_mkSegP (p : List Char) (k : Nat) (pad : Char)
    (hne : p ≠ []) (hsp : ' ' ∉ p) (hlt : ∀ c ∈ p, lineTerm c = false)
    (htr : trimChars p = p) (hnl : '\n' ∉ mkSegP p k pad) :
    pathFromSegment (mkSegP p k pad) = p := by
  unfold mkSegP at hnl
  unfold pathFromSegment mkSegP
  rw [takeWhile_of_no_newline hnl, if_pos (isPrefixOf_append_self _ _)]
  have hdrop : ("diff --git a/".data ++
      (p ++ (" b/".data ++ (p ++ List.replicate k pad)))).drop 13 =
      p ++ (" b/".data ++ (p ++ List.replicate k pad)) := by
    have h13 : "diff --git a/".data.length = 13 := by decide
    rw [← h13, List.drop_left]
  rw [hdrop, pathCapture_no_space p _ hne hsp hlt]
  exact htr

/-- A 500 000-byte single-line text section with path `A`. -/
def cSegA : List Char := mkSeg 'A' 499982 'x'

/-- A 1 200 000-byte single-line text section with path `B`. -/
def cSegB : List Char := mkSeg 'B' 1199982 'x'

/-- A `26 + m`-byte single-line section with path `c.png`. -/
def cSegC (m : Nat) : List Char := mkSegP "c.png".data m 'z'

/-- The raw diff of the spec's three-section example: A (500 KB text),
B (1.2 MB text), C (`.png`, any size `m`). -/
def cRaw4 (m : Nat) : List Char := cSegA ++ '\n' :: (cSegB ++ '\n' :: cSegC m)

theorem byteLength_cSegA : byteLength cSegA = 500000 := by
  unfold cSegA
  rw [byteLength_mkSeg]
  norm_num [show charBytes 'A' = 1 by decide, show charBytes 'x' = 1 by decide]

theorem byteLength_cSegB : byteLength cSegB = 1200000 := by
  unfold cSegB
  rw [byteLength_mkSeg]
  norm_num [show charBytes 'B' = 1 by decide, show charBytes 'x' = 1 by decide]

theorem byteLength_cSegC (m : Nat) : byteLength (cSegC m) = 26 + m := by
  unfold cSegC
  rw [byteLength_mkSegP]
  norm_num [show byteLength "c.png".data = 5 by decide,
    show charBytes 'z' = 1 by decide]

theorem trimChars_cSegC (m : Nat) : trimChars (cSegC m) = cSegC m := by
  cases m with
  | zero => decide
  | succ k => exact trimChars_mkSegP "c.png".data k 'z' (by decide)

theorem pathFromSegment_cSegC (m : Nat) :
    pathFromSegment (cSegC m) = "c.png".data := by
  apply pathFromSegment_mkSegP
  · decide
  · decide
  · decide
  · decide
  · exact not_mem_mkSegP (by decide) (by decide) (by decide) (by decide)

theorem splitDiffByFile_cRaw4 (m : Nat) :
    splitDiffByFile (cRaw4 m) = [cSegA, cSegB, cSegC m] :=
  splitDiffByFile_three
    (newline_not_mem_mkSeg 'A' _ 'x' (by decide) (by decide))
    (newline_not_mem_mkSeg 'B' _ 'x' (by decide) (by decide))
    (not_mem_mkSegP (by decide) (by decide) (by decide) (by decide))
    (marker_isPrefixOf_newline_mkSeg 'B' _ 'x')
    (marker_isPrefixOf_newline_mkSegP "c.png".data m 'z')
    (trimChars_mkSeg 'A' 499981 'x' (by decide) (by decide))
    (trimChars_mkSeg 'B' 1199981 'x' (by decide) (by decide))
    (trimChars_cSegC m)
    (mkSeg_ne_nil _ _ _) (mkSeg_ne_nil _ _ _) (mkSegP_ne_nil _ _ _)

theorem notExcluded_cSegA :
    ¬ ((pathFromSegment cSegA ≠ [] ∧
        isImageOrHeavyByPath (pathFromSegment cSegA) = true) ∨
      segmentIsBinary cSegA = true ∨
      byteLength cSegA > MAX_FILE_DIFF_BYTES) := by
  have hpath : pathFromSegment cSegA = ['A'] :=
    pathFromSegment_mkSeg 'A' _ 'x' (by decide) (by decide) (by decide) (by decide)
  have hbin : segmentIsBinary cSegA = false :=
    segmentIsBinary_mkSeg 'A' _ 'x' (by decide) (by decide)
  intro h
  rcases h with ⟨_, hi⟩ | hb | hs
  · rw [hpath, show isImageOrHeavyByPath ['A'] = false by decide] at hi
    exact Bool.false_ne_true hi
  · rw [hbin] at hb
    exact Bool.false_ne_true hb
  · rw [byteLength_cSegA] at hs
    exact absurd hs (by decide)

theorem step_cSegA : processSegment initState cSegA =
    ⟨[], [cSegA], 500000, false⟩ := by
  rw [processSegment_fits notExcluded_cSegA
    (by rw [show initState.totalBytes = 0 from rfl, byteLength_cSegA]; decide)]
  simp [initState, byteLength_cSegA]

theorem step_cSegB : processSegment ⟨[], [cSegA], 500000, false⟩ cSegB =
    ⟨[['B']], [cSegA], 500000, false⟩ := by
  have hpath : pathFromSegment cSegB = ['B'] :=
    pathFromSegment_mkSeg 'B' _ 'x' (by decide) (by decide) (by decide) (by decide)
  rw [processSegment_excl (Or.inr (Or.inr (by rw [byteLength_cSegB]; decide)))
    (by rw [hpath]; decide)]
  simp [hpath]

theorem step_cSegC (m : Nat) :
    processSegment ⟨[['B']], [cSegA], 500000, false⟩ (cSegC m) =
      ⟨[['B'], "c.png".data], [cSegA], 500000, false⟩ := by
  have hpath := pathFromSegment_cSegC m
  rw [processSegment_excl
    (Or.inl ⟨by rw [hpath]; decide,
      by rw [hpath]; decide⟩)
    (by rw [hpath]; decide)]
  simp [hpath]

theorem getDiffForJudge_cRaw4 (m : Nat) :
    getDiffForJudge "base" "head" (some (cRaw4 m)) =
      ⟨cSegA, [['B'], "c.png".data],
        decide (byteLength (cRaw4 m) > MAX_DIFF_BYTES), "base", "head"⟩ := by
  have hloop : processSegments [cSegA, cSegB, cSegC m] =
      ⟨[['B'], "c.png".data], [cSegA], 500000, false⟩ := by
    unfold processSegments
    simp only [List.foldl_cons, List.foldl_nil, step_cSegA, step_cSegB,
      step_cSegC]
  simp only [getDiffForJudge, splitDiffByFile_cRaw4 m, hloop]
  simp [List.intercalate, List.intersperse, dedupFirst, dedupFirstAux]

theorem byteLength_cRaw4 (m : Nat) : byteLength (cRaw4 m) = 1700028 + m := by
  unfold cRaw4
  rw [byteLength_append, byteLength_cons, byteLength_append, byteLength_cons,
    byteLength_cSegA, byteLength_cSegB, byteLength_cSegC]
  rw [show charBytes '\n' = 1 by decide]
  omega

/-- C4 (amended): for the three-section raw diff — A of 500 000 bytes of
text, B of 1 200 000 bytes of text, C with a `.png` path of any size — the
output diff contains only section A and `excludedFiles` lists B's path then
C's path; `truncated` is `false` exactly when the raw diff's total byte
length stays within 2 MiB, and `true` once C makes the raw diff exceed
2 MiB (the raw-size safety net), even though nothing was forcibly cut. -/
theorem c4_three_sections (m : Nat) :
    (getDiffForJudge "base" "head" (some (cRaw4 m))).diff = cSegA ∧
      (getDiffForJudge "base" "head" (some (cRaw4 m))).excludedFiles =
        [['B'], "c.png".data] ∧
      ((getDiffForJudge "base" "head" (some (cRaw4 m))).truncated = false ↔
        byteLength (cRaw4 m) ≤ MAX_DIFF_BYTES) := by
  rw [getDiffForJudge_cRaw4 m]
  refine ⟨rfl, rfl, ?_⟩
  simp

/-- C4 counterexample: with C sized at 400 000 padding bytes the output is
exactly the configuration the claim describes (diff is A only,
`excludedFiles = [B, C]`), yet `truncated = true` because the raw diff
exceeds 2 MiB — refuting `truncated = false` for "C of any size". -/
theorem c4_counterexample :
    (getDiffForJudge "base" "head" (some (cRaw4 400000))).truncated = true ∧
      (getDiffForJudge "base" "head" (some (cRaw4 400000))).diff = cSegA ∧
      (getDiffForJudge "base" "head" (some (cRaw4 400000))).excludedFiles =
        [['B'], "c.png".data] := by
  rw [getDiffForJudge_cRaw4 400000]
  refine ⟨?_, rfl, rfl⟩
  rw [byteLength_cRaw4 400000]
  decide

/-! ### Deduplication lemmas (shared by C5 and C7) -/

/-- Position of the first occurrence of `a` in `l` (length of `l` when
absent). -/
def firstIdx : List (List Char) → List Char → Nat
  | [], _ => 0
  | b :: t, a => if a = b then 0 else firstIdx t a + 1

theorem firstIdx_cons_self (b : List Char) (t : List (List Char)) :
    firstIdx (b :: t) b = 0 := by
  simp [firstIdx]

theorem firstIdx_cons_ne (b : List Char) (t : List (List Char))
    {a : List Char} (h : a ≠ b) : firstIdx (b :: t) a = firstIdx t a + 1 := by
  simp [firstIdx, h]

theorem mem_dedupFirstAux {α : Type} [DecidableEq α] :
    ∀ (l seen : List α) (a : α),
      a ∈ dedupFirstAux seen l ↔ a ∈ l ∧ a ∉ seen := by
  intro l
  induction l with
  | nil => intro seen a; simp [dedupFirstAux]
  | cons b t ih =>
    intro seen a
    by_cases hb : b ∈ seen
    · simp only [dedupFirstAux, if_pos hb]
      rw [ih]
      constructor
      · rintro ⟨h1, h2⟩
        exact ⟨by simp [h1], h2⟩
      · rintro ⟨h1, h2⟩
        rcases List.mem_cons.mp h1 with rfl | h1
        · exact absurd hb h2
        · exact ⟨h1, h2⟩
    · simp only [dedupFirstAux, if_neg hb, List.mem_cons]
      rw [ih]
      constructor
      · rintro (rfl | ⟨h1, h2⟩)
        · exact ⟨by simp, hb⟩
        · have h2' : a ∉ seen := fun hs => h2 (by simp [hs])
          exact ⟨by simp [h1], h2'⟩
      · rintro ⟨h1, h2⟩
        by_cases hab : a = b
        · exact Or.inl hab
        · right
          rcases h1 with rfl | h1
          · exact absurd rfl hab
          · refine ⟨h1, ?_⟩
            intro hmem
            rcases List.mem_append.mp hmem with h | h
            · exact h2 h
            · exact hab (by simpa using h)

theorem nodup_dedupFirstAux {α : Type} [DecidableEq α] :
    ∀ (l seen : List α), (dedupFirstAux seen l).Nodup := by
  intro l
  induction l with
  | nil => intro seen; simp [dedupFirstAux]
  | cons b t ih =>
    intro seen
    by_cases hb : b ∈ seen
    · simp only [dedupFirstAux, if_pos hb]
      exact ih seen
    · simp only [dedupFirstAux, if_neg hb]
      refine List.nodup_cons.mpr ⟨?_, ih _⟩
      intro hmem
      have := (mem_dedupFirstAux t (seen ++ [b]) b).mp hmem
      exact this.2 (by simp)

theorem pairwise_firstIdx_dedupFirstAux :
    ∀ (l seen : List (List Char)),
      List.Pairwise (fun p q => firstIdx l p < firstIdx l q)
        (dedupFirstAux seen l) := by
  intro l
  induction l with
  | nil => intro seen; simp [dedupFirstAux]
  | cons b t ih =>
    intro seen
    by_cases hb : b ∈ seen
    · simp only [dedupFirstAux, if_pos hb]
      refine List.Pairwise.imp_of_mem ?_ (ih seen)
      intro x y hx hy hlt
      have hxt := (mem_dedupFirstAux t seen x).mp hx
      have hyt := (mem_dedupFirstAux t seen y).mp hy
      have hxb : x ≠ b := fun h => hxt.2 (h ▸ hb)
      have hyb : y ≠ b := fun h => hyt.2 (h ▸ hb)
      rw [firstIdx_cons_ne _ _ hxb, firstIdx_cons_ne _ _ hyb]
      omega
    · simp only [dedupFirstAux, if_neg hb]
      refine List.pairwise_cons.mpr ⟨?_, ?_⟩
      · intro y hy
        have hyt := (mem_dedupFirstAux t (seen ++ [b]) y).mp hy
        have hyb : y ≠ b := fun h => hyt.2 (by simp [h])
        rw [firstIdx_cons_self, firstIdx_cons_ne _ _ hyb]
        omega
      · refine List.Pairwise.imp_of_mem ?_ (ih (seen ++ [b]))
        intro x y hx hy hlt
        have hxt := (mem_dedupFirstAux t (seen ++ [b]) x).mp hx
        have hyt := (mem_dedupFirstAux t (seen ++ [b]) y).mp hy
        have hxb : x ≠ b := fun h => hxt.2 (by simp [h])
        have hyb : y ≠ b := fun h => hyt.2 (by simp [h])
        rw [firstIdx_cons_ne _ _ hxb, firstIdx_cons_ne _ _ hyb]
        omega

theorem mem_dedupFirst {α : Type} [DecidableEq α] (l : List α) (a : α) :
    a ∈ dedupFirst l ↔ a ∈ l := by
  unfold dedupFirst
  rw [mem_dedupFirstAux]
  simp

theorem nodup_dedupFirst {α : Type} [DecidableEq α] (l : List α) :
    (dedupFirst l).Nodup :=
  nodup_dedupFirstAux l []

theorem pairwise_firstIdx_dedupFirst (l : List (List Char)) :
    List.Pairwise (fun p q => firstIdx l p < firstIdx l q) (dedupFirst l) :=
  pairwise_firstIdx_dedupFirstAux l []

/-! ### Claim C5: `excludedFiles` is deduplicated in first-seen order -/

/-- C5: in every result of `getDiffForJudge`, `excludedFiles` contains each
path at most once (`Nodup`), contains exactly the paths the loop excluded,
and lists them in order of first exclusion: pairwise, an earlier entry's
first exclusion (its `indexOf` in the raw exclusion sequence of the loop)
precedes a later entry's. -/
theorem c5_excluded_files_dedup (gitOut : List Char) (base head : String) :
    ((getDiffForJudge base head (some gitOut)).excludedFiles).Nodup ∧
      (∀ p, p ∈ (getDiffForJudge base head (some gitOut)).excludedFiles ↔
        p ∈ (processSegments (splitDiffByFile gitOut)).excludedFiles) ∧
      List.Pairwise
        (fun p q =>
          firstIdx (processSegments (splitDiffByFile gitOut)).excludedFiles p <
            firstIdx (processSegments (splitDiffByFile gitOut)).excludedFiles q)
        ((getDiffForJudge base head (some gitOut)).excludedFiles) := by
  have hef : (getDiffForJudge base head (some gitOut)).excludedFiles =
      dedupFirst (processSegments (splitDiffByFile gitOut)).excludedFiles := rfl
  rw [hef]
  exact ⟨nodup_dedupFirst _, fun p => mem_dedupFirst _ p,
    pairwise_firstIdx_dedupFirst _⟩

/-! ### Claim C9: the splitter is total and the fallback is dead code -/

theorem splitRaw_flatten (l : List Char) : (splitRaw l).flatten = l := by
  unfold splitRaw
  rw [splitMarkerAux_flatten]
  simp

/-- C9: for every input whose trimmed form is non-empty, `splitDiffByFile`
returns at least one segment, every returned segment is a non-empty string
fixed by `trim`; and the single-segment fallback branch is unreachable for
every input. -/
theorem c9_split_total (raw : List Char) :
    (trimChars raw ≠ [] → splitDiffByFile raw ≠ [] ∧
      ∀ s ∈ splitDiffByFile raw, s ≠ [] ∧ trimChars s = s) ∧
    splitFallbackTaken raw = false := by
  by_cases htriv : trimChars raw = []
  · refine ⟨fun h => absurd htriv h, ?_⟩
    simp [splitFallbackTaken, htriv]
  · have hsegne :
        (((splitRaw raw).map trimChars).filter (fun s => s ≠ [])) ≠ [] := by
      intro hnil
      have hall : ∀ s ∈ (splitRaw raw).map trimChars, s = [] := by
        intro s hs
        by_contra hne
        have hmem : s ∈ ((splitRaw raw).map trimChars).filter (fun s => s ≠ []) :=
          List.mem_filter.mpr ⟨hs, by simpa using hne⟩
        rw [hnil] at hmem
        exact absurd hmem (List.not_mem_nil s)
      have hws : ∀ c ∈ raw, isJsWS c = true := by
        intro c hc
        have hc' : c ∈ (splitRaw raw).flatten := by
          rw [splitRaw_flatten]
          exact hc
        obtain ⟨piece, hpiece, hcp⟩ := List.mem_flatten.mp hc'
        have hpt : trimChars piece = [] :=
          hall (trimChars piece) (List.mem_map_of_mem _ hpiece)
        exact (trimChars_eq_nil_iff piece).mp hpt c hcp
      exact htriv ((trimChars_eq_nil_iff raw).mpr hws)
    have hresult : splitDiffByFile raw =
        ((splitRaw raw).map trimChars).filter (fun s => s ≠ []) := by
      unfold splitDiffByFile
      rw [if_neg htriv, if_neg (fun h => hsegne h.1)]
    refine ⟨fun _ => ⟨by rw [hresult]; exact hsegne, ?_⟩, ?_⟩
    · intro s hs
      rw [hresult] at hs
      have h1 := List.mem_filter.mp hs
      have hne : s ≠ [] := by simpa using h1.2
      obtain ⟨piece, _, rfl⟩ := List.mem_map.mp h1.1
      exact ⟨hne, trimChars_idem piece⟩
    · unfold splitFallbackTaken
      rw [if_neg htriv]
      apply decide_eq_false
      rintro ⟨h1, _⟩
      exact hsegne h1

/-- Witness for C9: the split of a concrete non-empty text. -/
theorem c9_witness :
    trimChars "hello".data ≠ [] ∧
      (splitDiffByFile "hello".data ≠ [] ∧
        ∀ s ∈ splitDiffByFile "hello".data, s ≠ [] ∧ trimChars s = s) ∧
      splitFallbackTaken "hello".data = false :=
  ⟨by decide, (c9_split_total "hello".data).1 (by decide),
    (c9_split_total "hello".data).2⟩

/-! ### Claim C7: decision-reference extraction -/

theorem foldl_setAdd_eq {α : Type} [DecidableEq α] :
    ∀ (l acc : List α), l.foldl setAdd acc = acc ++ dedupFirstAux acc l := by
  intro l
  induction l with
  | nil => intro acc; simp [dedupFirstAux]
  | cons a t ih =>
    intro acc
    simp only [List.foldl_cons, setAdd, dedupFirstAux]
    by_cases h : a ∈ acc
    · rw [if_pos h, if_pos h, ih]
    · rw [if_neg h, if_neg h, ih]
      simp

/-- C7: `extractDecisionIds` maps `"decern:abc_123"` to `["abc_123"]`,
`"DECERN-xyz"` to `["xyz"]` and `"See ADR-001"` to `["ADR-001"]`; and for
every text it returns the first-seen-order deduplication of the raw
captures of the four pattern families — so a reference matched several
times appears exactly once (`Nodup`), at its first position. -/
theorem c7_extract_decision_ids :
    extractDecisionIds "decern:abc_123".data = ["abc_123".data] ∧
      extractDecisionIds "DECERN-xyz".data = ["xyz".data] ∧
      extractDecisionIds "See ADR-001".data = ["ADR-001".data] ∧
      ∀ text : List Char,
        extractDecisionIds text = dedupFirst (allRefCaptures text) ∧
          (extractDecisionIds text).Nodup := by
  refine ⟨by decide, by decide, by decide, fun text => ?_⟩
  have h : extractDecisionIds text = dedupFirst (allRefCaptures text) := by
    unfold extractDecisionIds dedupFirst
    rw [foldl_setAdd_eq]
    simp
  exact ⟨h, h ▸ nodup_dedupFirst _⟩

end DecernGate
